import Mathlib

/-!
# Verification of the parallel Mandelbrot renderer (`src/main.rs`)

Shallow embedding of the renderer's core: complex points carry exact
rational coordinates (`ℚ`) in place of `f64`, pixel buffers are lists of
natural numbers in place of `&mut [u8]`, and the fallible assertion in
`render` is modelled with `Option`.  Every definition is translated
directly from the Rust source.
-/

/-- A point of the complex plane, `num::Complex<f64>` with exact rational
coordinates. -/
structure ComplexQ where
  re : ℚ
  im : ℚ
deriving DecidableEq, Repr

/-- Complex addition, as in `num::Complex`. -/
def cadd (a b : ComplexQ) : ComplexQ := ⟨a.re + b.re, a.im + b.im⟩

/-- Complex multiplication, as in `num::Complex`. -/
def cmul (a b : ComplexQ) : ComplexQ :=
  ⟨a.re * b.re - a.im * b.im, a.re * b.im + a.im * b.re⟩

/-- `Complex::norm_sqr`: the squared modulus `re² + im²`. -/
def norm_sqr (a : ComplexQ) : ℚ := a.re * a.re + a.im * a.im

/-- The loop of `escape_time` (src/main.rs:11-19): `fuel` iterations remain,
`z` is the current iterate and `i` the current loop index.  Each step first
updates `z ← z² + c` and then tests `norm_sqr z > 4`. -/
def escapeTimeGo (c : ComplexQ) : ℕ → ComplexQ → ℕ → Option ℕ
  | 0, _, _ => none
  | fuel + 1, z, i =>
    let z' := cadd (cmul z z) c
    if 4 < norm_sqr z' then some i else escapeTimeGo c fuel z' (i + 1)

/-- `escape_time` (src/main.rs:9-21): iterate `z ← z² + c` from `z = 0` up to
`limit` times, returning the index of the first update whose result has
squared modulus above `4`, or `none` if none does. -/
def escape_time (c : ComplexQ) (limit : ℕ) : Option ℕ :=
  escapeTimeGo c limit ⟨0, 0⟩ 0

/-- The `n`-th iterate of `z ← z² + c` starting from `z = 0`: a reference
description of the loop state used to specify `escape_time`. -/
def zIter (c : ComplexQ) : ℕ → ComplexQ
  | 0 => ⟨0, 0⟩
  | n + 1 => cadd (cmul (zIter c n) (zIter c n)) c

/-- `pixel_to_point` (src/main.rs:74-88): map pixel `(column, row)` of an image
with dimensions `bounds = (width, height)` to the corresponding point of the
viewport spanned by `upper_left` and `lower_right`. -/
def pixel_to_point (bounds : ℕ × ℕ) (pixel : ℕ × ℕ)
    (upper_left lower_right : ComplexQ) : ComplexQ :=
  let width : ℚ := lower_right.re - upper_left.re
  let height : ℚ := upper_left.im - lower_right.im
  ⟨upper_left.re + (pixel.1 : ℚ) * width / (bounds.1 : ℚ),
   upper_left.im - (pixel.2 : ℚ) * height / (bounds.2 : ℚ)⟩

/-- The byte written for one pixel by `render` (src/main.rs:119-122): `16`
when the point never escapes, otherwise the escape count truncated to a byte
(`count as u8`). -/
def mandelPixel (bounds : ℕ × ℕ) (ul lr : ComplexQ) (col row : ℕ) : ℕ :=
  match escape_time (pixel_to_point bounds (col, row) ul lr) 255 with
  | none => 16
  | some count => count % 256

/-- The inner loop of `render` (src/main.rs:115-123): write the bytes of row
`row` for columns `0, …, cols - 1` into the buffer at `row * width + column`. -/
def renderCols (bounds : ℕ × ℕ) (ul lr : ComplexQ) (row : ℕ) :
    ℕ → List ℕ → List ℕ
  | 0, p => p
  | c + 1, p =>
    (renderCols bounds ul lr row c p).set (row * bounds.1 + c)
      (mandelPixel bounds ul lr c row)

/-- The outer loop of `render` (src/main.rs:113-124): fill rows
`0, …, rows - 1` of the buffer. -/
def renderRows (bounds : ℕ × ℕ) (ul lr : ComplexQ) : ℕ → List ℕ → List ℕ
  | 0, p => p
  | r + 1, p => renderCols bounds ul lr r bounds.1 (renderRows bounds ul lr r p)

/-- `render` (src/main.rs:104-125).  The Rust function asserts
`pixels.len() == bounds.0 * bounds.1` and then fills every pixel; the
assertion failure is modelled as `none`. -/
def render (pixels : List ℕ) (bounds : ℕ × ℕ) (ul lr : ComplexQ) :
    Option (List ℕ) :=
  if pixels.length = bounds.1 * bounds.2 then
    some (renderRows bounds ul lr bounds.2 pixels)
  else
    none

/-- `rows_per_band` (src/main.rs:197): integer division plus one. -/
def rows_per_band (height threads : ℕ) : ℕ := height / threads + 1

/-- `slice::chunks_mut` (src/main.rs:199): split a list into consecutive
chunks of `k` elements, the last chunk possibly shorter.  (Rust panics on
`k = 0`; the scheduler only calls it with `k > 0` when `width > 0`.) -/
def chunks (k : ℕ) (l : List ℕ) : List (List ℕ) :=
  if h : k = 0 ∨ l = [] then [] else l.take k :: chunks k (l.drop k)
termination_by l.length
decreasing_by
  rcases not_or.mp h with ⟨hk, hl⟩
  simp only [List.length_drop]
  have : 0 < l.length := List.length_pos.mpr hl
  omega

/-- The band list built by `main` (src/main.rs:193-199): a zero-filled buffer
of `width * height` bytes split into chunks of `rows_per_band * width`. -/
def schedBands (w h t : ℕ) : List (List ℕ) :=
  chunks (rows_per_band h t * w) (List.replicate (w * h) 0)

/-- `top` for band `i` (src/main.rs:202): `rows_per_band * i`. -/
def bandTop (h t i : ℕ) : ℕ := rows_per_band h t * i

/-- `height` for band `i` (src/main.rs:203): the band's length divided by the
image width. -/
def bandHeight (w h t i : ℕ) : ℕ := ((schedBands w h t).getD i []).length / w

/-- The loop over bands in `main` (src/main.rs:201-211): band `i` gets bounds
`(width, band.len() / width)` and the viewport corners obtained by mapping its
top-left and bottom-right pixel through `pixel_to_point` over the full image
bounds; each band is rendered and the results are joined in order. -/
def renderBands (w h : ℕ) (ul lr : ComplexQ) (rpb : ℕ) :
    ℕ → List (List ℕ) → Option (List ℕ)
  | _, [] => some []
  | i, b :: rest =>
    let top := rpb * i
    let bh := b.length / w
    let bul := pixel_to_point (w, h) (0, top) ul lr
    let blr := pixel_to_point (w, h) (w, top + bh) ul lr
    (render b (w, bh) bul blr).bind fun rb =>
      (renderBands w h ul lr rpb (i + 1) rest).map fun rs => rb ++ rs

/-- The banded render of `main` (src/main.rs:193-214) with `threads` workers:
partition the zero-filled buffer into bands and render each band. -/
def renderParallel (bounds : ℕ × ℕ) (ul lr : ComplexQ) (threads : ℕ) :
    Option (List ℕ) :=
  renderBands bounds.1 bounds.2 ul lr (rows_per_band bounds.2 threads) 0
    (schedBands bounds.1 bounds.2 threads)

example : pixel_to_point (100, 100) (25, 75) ⟨-1, 1⟩ ⟨1, -1⟩ = ⟨-1/2, -1/2⟩ := by
  norm_num [pixel_to_point]

example : escape_time ⟨3, 0⟩ 5 = some 0 := by
  norm_num [escape_time, escapeTimeGo, cadd, cmul, norm_sqr]

example : escape_time ⟨0, 0⟩ 7 = none := by
  norm_num [escape_time, escapeTimeGo, cadd, cmul, norm_sqr]

/-- Characterisation of the `escape_time` loop returning `some k`, for a loop
entered with state `z = zIter c i` at index `i` and `fuel` iterations left. -/
lemma escapeTimeGo_some_iff (c : ComplexQ) (fuel : ℕ) : ∀ i k,
    (escapeTimeGo c fuel (zIter c i) i = some k ↔
      i ≤ k ∧ k < i + fuel ∧ 4 < norm_sqr (zIter c (k + 1)) ∧
        ∀ j, i ≤ j → j < k → norm_sqr (zIter c (j + 1)) ≤ 4) := by
  induction fuel with
  | zero =>
    intro i k
    simp only [escapeTimeGo]
    constructor
    · intro h; exact absurd h (by simp)
    · rintro ⟨h1, h2, -, -⟩; exact absurd h2 (by omega)
  | succ fuel ih =>
    intro i k
    have hz : cadd (cmul (zIter c i) (zIter c i)) c = zIter c (i + 1) := rfl
    simp only [escapeTimeGo, hz]
    by_cases hlt : 4 < norm_sqr (zIter c (i + 1))
    · simp only [if_pos hlt]
      constructor
      · intro h
        have hk : k = i := by
          have := Option.some_injective _ h
          omega
        subst hk
        exact ⟨le_rfl, by omega, hlt, fun j hj1 hj2 => absurd hj1 (by omega)⟩
      · rintro ⟨h1, h2, h3, h4⟩
        have hk : k = i := by
          by_contra hne
          have hik : i < k := lt_of_le_of_ne h1 (Ne.symm hne)
          exact absurd hlt (not_lt.mpr (h4 i le_rfl hik))
        subst hk; rfl
    · simp only [if_neg hlt]
      rw [ih (i + 1) k]
      constructor
      · rintro ⟨h1, h2, h3, h4⟩
        refine ⟨by omega, by omega, h3, ?_⟩
        intro j hj1 hj2
        rcases eq_or_lt_of_le hj1 with he | hgt
        · rw [← he]; exact not_lt.mp hlt
        · exact h4 j (by omega) hj2
      · rintro ⟨h1, h2, h3, h4⟩
        have hik : i + 1 ≤ k := by
          rcases eq_or_lt_of_le h1 with he | h
          · subst he; exact absurd h3 hlt
          · omega
        exact ⟨hik, by omega, h3, fun j hj1 hj2 => h4 j (by omega) hj2⟩

/-- Characterisation of the `escape_time` loop returning `none`. -/
lemma escapeTimeGo_none_iff (c : ComplexQ) (fuel : ℕ) : ∀ i,
    (escapeTimeGo c fuel (zIter c i) i = none ↔
      ∀ j, i ≤ j → j < i + fuel → norm_sqr (zIter c (j + 1)) ≤ 4) := by
  induction fuel with
  | zero =>
    intro i
    simp only [escapeTimeGo]
    constructor
    · intro _ j h1 h2; exact absurd h2 (by omega)
    · intro _; trivial
  | succ fuel ih =>
    intro i
    have hz : cadd (cmul (zIter c i) (zIter c i)) c = zIter c (i + 1) := rfl
    simp only [escapeTimeGo, hz]
    by_cases hlt : 4 < norm_sqr (zIter c (i + 1))
    · simp only [if_pos hlt]
      constructor
      · intro h; exact absurd h (by simp)
      · intro h; exact absurd hlt (not_lt.mpr (h i le_rfl (by omega)))
    · simp only [if_neg hlt]
      rw [ih (i + 1)]
      constructor
      · intro h j hj1 hj2
        rcases eq_or_lt_of_le hj1 with he | hgt
        · rw [← he]; exact not_lt.mp hlt
        · exact h j (by omega) (by omega)
      · intro h j hj1 hj2
        exact h j (by omega) (by omega)

/-- `0` is a fixed point of the iteration: every iterate of `c = 0` is `0`. -/
lemma zIter_origin (n : ℕ) : zIter ⟨0, 0⟩ n = ⟨0, 0⟩ := by
  induction n with
  | zero => rfl
  | succ n ih => simp [zIter, ih, cmul, cadd]

/-- C5: `escape_time c limit` iterates `z ← z² + c` from `z = 0` and returns
`some i` exactly when the `(i+1)`-st iterate is the first whose squared
modulus exceeds `4` and `i < limit`; it returns `none` exactly when no iterate
among the first `limit` exceeds squared modulus `4`. -/
theorem escape_time_first_escape (c : ComplexQ) (limit : ℕ) (hpos : 0 < limit) :
    (∀ i, escape_time c limit = some i ↔
        (i < limit ∧ 4 < norm_sqr (zIter c (i + 1)) ∧
          ∀ j < i, norm_sqr (zIter c (j + 1)) ≤ 4))
    ∧ (escape_time c limit = none ↔
        ∀ j < limit, norm_sqr (zIter c (j + 1)) ≤ 4) := by
  have h0 : (⟨0, 0⟩ : ComplexQ) = zIter c 0 := rfl
  constructor
  · intro i
    unfold escape_time
    rw [h0, escapeTimeGo_some_iff]
    constructor
    · rintro ⟨-, h2, h3, h4⟩
      exact ⟨by omega, h3, fun j hj => h4 j (by omega) hj⟩
    · rintro ⟨h1, h3, h4⟩
      exact ⟨by omega, by omega, h3, fun j _ hj => h4 j hj⟩
  · unfold escape_time
    rw [h0, escapeTimeGo_none_iff]
    constructor
    · intro h j hj
      exact h j (by omega) (by omega)
    · intro h j _ hj
      exact h j (by omega)

/-- Witness for C5: the point `3 + 0i` escapes on the very first update
(index `0`), with limit `2`. -/
theorem escape_time_first_escape_witness : escape_time ⟨3, 0⟩ 2 = some 0 :=
  ((escape_time_first_escape ⟨3, 0⟩ 2 (by decide)).1 0).mpr
    ⟨by decide, by norm_num [zIter, cmul, cadd, norm_sqr],
      fun j hj => absurd hj (by omega)⟩

/-- The origin never escapes, whatever the limit. -/
lemma escape_time_origin_eq (limit : ℕ) : escape_time ⟨0, 0⟩ limit = none := by
  unfold escape_time
  refine (escapeTimeGo_none_iff ⟨0, 0⟩ limit 0).mpr ?_
  intro j _ _
  rw [zIter_origin]
  norm_num [norm_sqr]

/-- C8: for every positive limit, `escape_time` at the origin returns `none`:
`0` is a fixed point of `z ← z² + c` and its squared modulus never exceeds
`4`. -/
theorem escape_time_origin (limit : ℕ) (hpos : 0 < limit) :
    escape_time ⟨0, 0⟩ limit = none :=
  escape_time_origin_eq limit

/-- Witness for C8: the origin does not escape with the renderer's limit
`255`. -/
theorem escape_time_origin_witness : escape_time ⟨0, 0⟩ 255 = none :=
  escape_time_origin 255 (by decide)

/-- Counterexample to C1: at `height = 8`, `worker_count = 4` the code's
`rows_per_band` is `8 / 4 + 1 = 3`, while `⌈8 / 4⌉ = 2`. -/
theorem rows_per_band_not_ceil :
    rows_per_band 8 4 = 3 ∧ (8 + 4 - 1) / 4 = 2 ∧
      rows_per_band 8 4 ≠ (8 + 4 - 1) / 4 := by
  refine ⟨by decide, by decide, by decide⟩
/-- C1 (amended): `rows_per_band` is floor division plus one,
`height / worker_count + 1`; this agrees with `⌈height / worker_count⌉`
(written `(height + worker_count - 1) / worker_count`) exactly when
`worker_count` does not divide `height`, and exceeds it by one when it
does. -/
theorem rows_per_band_eq (h t : ℕ) (hh : 0 < h) (ht : 0 < t) :
    rows_per_band h t = h / t + 1 ∧
      (¬ t ∣ h → rows_per_band h t = (h + t - 1) / t) ∧
      (t ∣ h → rows_per_band h t = (h + t - 1) / t + 1) := by
  have hdm : t * (h / t) + h % t = h := Nat.div_add_mod h t
  have hlt : h % t < t := Nat.mod_lt _ ht
  refine ⟨rfl, ?_, ?_⟩
  · intro hnd
    have hmod : h % t ≠ 0 := fun hc => hnd (Nat.dvd_iff_mod_eq_zero.mpr hc)
    have key : (h + t - 1) / t = h / t + 1 := by
      apply Nat.div_eq_of_lt_le
      · have hexp : (h / t + 1) * t = t * (h / t) + t := by ring
        omega
      · have hexp : (h / t + 1 + 1) * t = t * (h / t) + t + t := by ring
        omega
    rw [key]; rfl
  · intro hd
    have hmod : h % t = 0 := Nat.dvd_iff_mod_eq_zero.mp hd
    have key : (h + t - 1) / t = h / t := by
      apply Nat.div_eq_of_lt_le
      · have hexp : h / t * t = t * (h / t) := by ring
        omega
      · have hexp : (h / t + 1) * t = t * (h / t) + t := by ring
        omega
    rw [key]; rfl

/-- Witness for C1 (amended): `height = 5`, `worker_count = 2`, where
`4 ∤ 5`: `rows_per_band 5 2 = 3 = ⌈5 / 2⌉`. -/
theorem rows_per_band_eq_witness :
    rows_per_band 5 2 = 5 / 2 + 1 ∧ rows_per_band 5 2 = (5 + 2 - 1) / 2 :=
  ⟨(rows_per_band_eq 5 2 (by decide) (by decide)).1,
    (rows_per_band_eq 5 2 (by decide) (by decide)).2.1 (by decide)⟩

/-- The inner render loop does not change the buffer length. -/
lemma length_renderCols (bounds : ℕ × ℕ) (ul lr : ComplexQ) (row : ℕ) :
    ∀ c p, (renderCols bounds ul lr row c p).length = p.length := by
  intro c
  induction c with
  | zero => intro p; rfl
  | succ c ih => intro p; simp [renderCols, List.length_set, ih]

/-- The outer render loop does not change the buffer length. -/
lemma length_renderRows (bounds : ℕ × ℕ) (ul lr : ComplexQ) :
    ∀ r p, (renderRows bounds ul lr r p).length = p.length := by
  intro r
  induction r with
  | zero => intro p; rfl
  | succ r ih => intro p; simp [renderRows, length_renderCols, ih]

/-- Contents after the inner loop: columns `0, …, c - 1` of row `row` hold
their pixel bytes, every other position is untouched. -/
lemma renderCols_getElem? (bounds : ℕ × ℕ) (ul lr : ComplexQ) (row : ℕ) :
    ∀ (c : ℕ) (p : List ℕ), row * bounds.1 + c ≤ p.length → ∀ i,
      (renderCols bounds ul lr row c p)[i]? =
        if row * bounds.1 ≤ i ∧ i < row * bounds.1 + c
        then some (mandelPixel bounds ul lr (i - row * bounds.1) row)
        else p[i]? := by
  intro c
  induction c with
  | zero =>
    intro p _ i
    rw [if_neg (by omega)]
    rfl
  | succ c ih =>
    intro p hfit i
    simp only [renderCols]
    rw [List.getElem?_set]
    by_cases he : row * bounds.1 + c = i
    · rw [if_pos he]
      have hl : row * bounds.1 + c < (renderCols bounds ul lr row c p).length := by
        rw [length_renderCols]; omega
      rw [if_pos hl, if_pos (by omega)]
      have harg : i - row * bounds.1 = c := by omega
      rw [harg]
    · rw [if_neg he, ih p (by omega) i]
      by_cases h1 : row * bounds.1 ≤ i ∧ i < row * bounds.1 + c
      · rw [if_pos h1, if_pos (by omega)]
      · rw [if_neg h1, if_neg (by omega)]

/-- Contents after the outer loop: every position `i < r * width` holds the
pixel byte of column `i % width`, row `i / width`; every other position is
untouched. -/
lemma renderRows_getElem? (bounds : ℕ × ℕ) (ul lr : ComplexQ) :
    ∀ (r : ℕ) (p : List ℕ), 0 < bounds.1 → r * bounds.1 ≤ p.length → ∀ i,
      (renderRows bounds ul lr r p)[i]? =
        if i < r * bounds.1
        then some (mandelPixel bounds ul lr (i % bounds.1) (i / bounds.1))
        else p[i]? := by
  intro r
  induction r with
  | zero =>
    intro p _ _ i
    rw [if_neg (by omega)]
    rfl
  | succ r ih =>
    intro p hw hfit i
    have hsm : (r + 1) * bounds.1 = r * bounds.1 + bounds.1 := by ring
    simp only [renderRows]
    rw [renderCols_getElem? bounds ul lr r bounds.1
      (renderRows bounds ul lr r p) (by rw [length_renderRows]; omega) i]
    by_cases h1 : r * bounds.1 ≤ i ∧ i < r * bounds.1 + bounds.1
    · rw [if_pos h1, if_pos (by omega)]
      have hdiv : i / bounds.1 = r :=
        Nat.div_eq_of_lt_le h1.1 (by rw [hsm]; omega)
      have hmod : i % bounds.1 = i - r * bounds.1 := by
        have hdm := Nat.div_add_mod i bounds.1
        rw [hdiv] at hdm
        have hcm : bounds.1 * r = r * bounds.1 := Nat.mul_comm _ _
        omega
      rw [hdiv, hmod]
    · rw [if_neg h1, ih p hw (by omega) i]
      by_cases h2 : i < r * bounds.1
      · rw [if_pos h2, if_pos (by omega)]
      · rw [if_neg h2, if_neg (by omega)]

/-- Degenerate buffers: the render loops leave an empty buffer empty. -/
lemma renderCols_nil (bounds : ℕ × ℕ) (ul lr : ComplexQ) (row : ℕ) :
    ∀ c, renderCols bounds ul lr row c [] = [] := by
  intro c
  induction c with
  | zero => rfl
  | succ c ih => simp [renderCols, ih]

/-- Degenerate buffers, outer loop. -/
lemma renderRows_nil (bounds : ℕ × ℕ) (ul lr : ComplexQ) :
    ∀ r, renderRows bounds ul lr r [] = [] := by
  intro r
  induction r with
  | zero => rfl
  | succ r ih => simp [renderRows, ih, renderCols_nil]

/-- C4: when the slice length matches `width * height`, `render` succeeds and
afterwards the byte at `row * width + column` is `16` for points that did not
escape and the escape count reduced to a byte otherwise; positions that are
not a pixel of the image are untouched. -/
theorem render_writes (p : List ℕ) (w h : ℕ) (ul lr : ComplexQ)
    (hlen : p.length = w * h) :
    ∃ out, render p (w, h) ul lr = some out ∧ out.length = p.length ∧
      (∀ row, row < h → ∀ col, col < w →
        out[row * w + col]? = some (mandelPixel (w, h) ul lr col row)) ∧
      (∀ i, (∀ row, row < h → ∀ col, col < w → i ≠ row * w + col) →
        out[i]? = p[i]?) := by
  refine ⟨renderRows (w, h) ul lr h p, by simp [render, hlen], ?_, ?_, ?_⟩
  · exact length_renderRows (w, h) ul lr h p
  · intro row hr col hc
    have hw : 0 < w := by omega
    have hb1 : ((w, h) : ℕ × ℕ).1 = w := rfl
    rw [renderRows_getElem? (w, h) ul lr h p hw
      (by rw [hb1, hlen, Nat.mul_comm w h]) (row * w + col)]
    rw [hb1]
    have hrow1 : (row + 1) * w = row * w + w := by ring
    have hr1 : (row + 1) * w ≤ h * w := Nat.mul_le_mul_right w (by omega)
    rw [if_pos (by omega)]
    have he : row * w + col = col + w * row := by ring
    rw [he, Nat.add_mul_div_left _ _ hw, Nat.add_mul_mod_self_left,
      Nat.div_eq_of_lt hc, Nat.mod_eq_of_lt hc, Nat.zero_add]
  · intro i hi
    by_cases hw : 0 < w
    · have hb1 : ((w, h) : ℕ × ℕ).1 = w := rfl
      rw [renderRows_getElem? (w, h) ul lr h p hw
        (by rw [hb1, hlen, Nat.mul_comm w h]) i]
      rw [hb1]
      rw [if_neg ?_]
      intro hcon
      refine hi (i / w) ((Nat.div_lt_iff_lt_mul hw).mpr hcon) (i % w)
        (Nat.mod_lt _ hw) ?_
      have hdm := Nat.div_add_mod i w
      have hcm : w * (i / w) = i / w * w := Nat.mul_comm _ _
      omega
    · have hw0 : w = 0 := by omega
      have hp : p = [] :=
        List.eq_nil_of_length_eq_zero (by rw [hlen, hw0, Nat.zero_mul])
      subst hp
      rw [renderRows_nil]

/-- Witness for C4: a `1 × 1` image with the degenerate viewport at the
origin. -/
theorem render_writes_witness :
    ∃ out, render [0] (1, 1) ⟨0, 0⟩ ⟨0, 0⟩ = some out ∧ out.length = [0].length ∧
      (∀ row, row < 1 → ∀ col, col < 1 →
        out[row * 1 + col]? = some (mandelPixel (1, 1) ⟨0, 0⟩ ⟨0, 0⟩ col row)) ∧
      (∀ i, (∀ row, row < 1 → ∀ col, col < 1 → i ≠ row * 1 + col) →
        out[i]? = [0][i]?) :=
  render_writes [0] 1 1 ⟨0, 0⟩ ⟨0, 0⟩ (by simp)

/-- C7: `render` succeeds exactly when the slice length equals
`width * height`; on a mismatch it returns `none` (the assertion fires before
any write), and when the lengths match every pixel write lands strictly
inside the slice. -/
theorem render_assertion (p : List ℕ) (bounds : ℕ × ℕ) (ul lr : ComplexQ) :
    ((render p bounds ul lr).isSome ↔ p.length = bounds.1 * bounds.2) ∧
      (p.length ≠ bounds.1 * bounds.2 → render p bounds ul lr = none) ∧
      (p.length = bounds.1 * bounds.2 →
        ∀ row, row < bounds.2 → ∀ col, col < bounds.1 →
          row * bounds.1 + col < p.length) := by
  refine ⟨?_, ?_, ?_⟩
  · unfold render
    split_ifs with hc
    · simp [hc]
    · simp [hc]
  · intro hne
    unfold render
    rw [if_neg hne]
  · intro hlen row hr col hc
    have hrow1 : (row + 1) * bounds.1 = row * bounds.1 + bounds.1 := by ring
    have hr1 : (row + 1) * bounds.1 ≤ bounds.2 * bounds.1 :=
      Nat.mul_le_mul_right bounds.1 (by omega)
    have hcm : bounds.2 * bounds.1 = bounds.1 * bounds.2 := Nat.mul_comm _ _
    omega

/-- C6: `pixel_to_point` computes
`re = upper_left.re + column * (lower_right.re - upper_left.re) / width` and
`im = upper_left.im - row * (upper_left.im - lower_right.im) / height`, and
maps pixel `(25, 75)` of a `100 × 100` image with viewport corners
`(-1, 1)`, `(1, -1)` to `(-1/2, -1/2)`. -/
theorem pixel_to_point_formula (w h col row : ℕ) (ul lr : ComplexQ)
    (hw : 0 < w) (hh : 0 < h) :
    pixel_to_point (w, h) (col, row) ul lr =
      ⟨ul.re + (col : ℚ) * (lr.re - ul.re) / (w : ℚ),
        ul.im - (row : ℚ) * (ul.im - lr.im) / (h : ℚ)⟩ ∧
      pixel_to_point (100, 100) (25, 75) ⟨-1, 1⟩ ⟨1, -1⟩ = ⟨-1/2, -1/2⟩ :=
  ⟨rfl, by norm_num [pixel_to_point]⟩

/-- Witness for C6: the spec's own numeric example, `bounds = (100, 100)`,
`pixel = (25, 75)`. -/
theorem pixel_to_point_formula_witness :
    pixel_to_point (100, 100) (25, 75) ⟨-1, 1⟩ ⟨1, -1⟩ = ⟨-1/2, -1/2⟩ :=
  (pixel_to_point_formula 100 100 25 75 ⟨-1, 1⟩ ⟨1, -1⟩ (by decide) (by decide)).2

/-- C9: a `10 × 10` render with `upper_left = lower_right = 0` writes the
in-set intensity `16` at every one of the 100 pixels. -/
theorem render_degenerate_viewport :
    render (List.replicate 100 0) (10, 10) ⟨0, 0⟩ ⟨0, 0⟩ =
      some (List.replicate 100 16) := by
  have hmp : ∀ col row, mandelPixel (10, 10) ⟨0, 0⟩ ⟨0, 0⟩ col row = 16 := by
    intro col row
    unfold mandelPixel
    have hpt : pixel_to_point (10, 10) (col, row) ⟨0, 0⟩ ⟨0, 0⟩ = ⟨0, 0⟩ := by
      simp [pixel_to_point]
    rw [hpt, escape_time_origin_eq]
  have hlen : (List.replicate 100 (0 : ℕ)).length = 10 * 10 := by simp
  unfold render
  rw [if_pos hlen]
  congr 1
  apply List.ext_getElem?
  intro i
  rw [renderRows_getElem? (10, 10) ⟨0, 0⟩ ⟨0, 0⟩ 10 (List.replicate 100 0)
    (by norm_num) (by simp) i]
  by_cases hi : i < 100
  · rw [if_pos (by omega), hmp, List.getElem?_replicate, if_pos hi]
  · rw [if_neg (by omega), List.getElem?_replicate, List.getElem?_replicate,
      if_neg hi, if_neg hi]

/-- `chunks` of the empty list is empty. -/
lemma chunks_nil (k : ℕ) : chunks k [] = [] := by
  rw [chunks]
  simp

/-- Unfolding `chunks` on a nonempty list with a positive chunk size. -/
lemma chunks_cons (k : ℕ) (l : List ℕ) (hk : k ≠ 0) (hl : l ≠ []) :
    chunks k l = l.take k :: chunks k (l.drop k) := by
  rw [chunks]
  rw [dif_neg (not_or.mpr ⟨hk, hl⟩)]

/-- The number of chunks is the ceiling of `length / k`. -/
lemma chunks_length (k : ℕ) (hk : 0 < k) (l : List ℕ) :
    (chunks k l).length = (l.length + k - 1) / k := by
  by_cases hl : l = []
  · subst hl
    rw [chunks_nil]
    simp only [List.length_nil]
    exact (Nat.div_eq_of_lt (by omega)).symm
  · have hn : 0 < l.length := List.length_pos.mpr hl
    rw [chunks_cons k l (by omega) hl]
    simp only [List.length_cons]
    rw [chunks_length k hk (l.drop k), List.length_drop]
    rcases le_or_lt l.length k with hle | hgt
    · have h1 : l.length - k = 0 := by omega
      rw [h1]
      have h2 : (0 + k - 1) / k = 0 := Nat.div_eq_of_lt (by omega)
      have h3 : (l.length + k - 1) / k = 1 :=
        Nat.div_eq_of_lt_le (by omega) (by omega)
      omega
    · have h1 : l.length - k + k - 1 = l.length - 1 := by omega
      have h2 : l.length + k - 1 = l.length - 1 + k := by omega
      rw [h1, h2, Nat.add_div_right _ hk]
termination_by l.length
decreasing_by
  have hn : 0 < l.length := List.length_pos.mpr hl
  simp only [List.length_drop]
  omega

/-- Chunk `i` is the slice of `k` elements starting at offset `k * i`. -/
lemma chunks_getD (k : ℕ) (hk : 0 < k) (l : List ℕ) :
    ∀ i, (chunks k l).getD i [] = (l.drop (k * i)).take k := by
  by_cases hl : l = []
  · subst hl
    intro i
    rw [chunks_nil]
    simp
  · intro i
    rw [chunks_cons k l (by omega) hl]
    cases i with
    | zero => simp
    | succ i =>
      rw [List.getD_cons_succ, chunks_getD k hk (l.drop k) i, List.drop_drop]
      have he : k + k * i = k * (i + 1) := by ring
      rw [he]
termination_by l.length
decreasing_by
  have hn : 0 < l.length := List.length_pos.mpr hl
  simp only [List.length_drop]
  omega

/-- Concatenating the chunks in order recovers the original list. -/
lemma chunks_flatten (k : ℕ) (hk : 0 < k) (l : List ℕ) :
    (chunks k l).flatten = l := by
  by_cases hl : l = []
  · subst hl
    rw [chunks_nil]
    rfl
  · rw [chunks_cons k l (by omega) hl, List.flatten_cons,
      chunks_flatten k hk (l.drop k), List.take_append_drop]
termination_by l.length
decreasing_by
  have hn : 0 < l.length := List.length_pos.mpr hl
  simp only [List.length_drop]
  omega

/-- `rows_per_band` is always positive. -/
lemma rows_per_band_pos (h t : ℕ) : 0 < rows_per_band h t := Nat.succ_pos _

/-- The byte length of band `i`: `min rows_per_band (height - top)` whole
rows of `width` bytes each. -/
lemma sched_band_len (w h t : ℕ) (hw : 0 < w) (i : ℕ) :
    ((schedBands w h t).getD i []).length =
      min (rows_per_band h t) (h - rows_per_band h t * i) * w := by
  have hk : 0 < rows_per_band h t * w := Nat.mul_pos (rows_per_band_pos h t) hw
  unfold schedBands
  rw [chunks_getD _ hk, List.drop_replicate, List.take_replicate,
    List.length_replicate]
  have hsub : w * h - rows_per_band h t * w * i = (h - rows_per_band h t * i) * w := by
    rw [tsub_mul]
    have e1 : w * h = h * w := by ring
    have e2 : rows_per_band h t * w * i = rows_per_band h t * i * w := by ring
    omega
  rw [hsub]
  rcases le_total (rows_per_band h t) (h - rows_per_band h t * i) with hle | hle
  · rw [min_eq_left (Nat.mul_le_mul_right w hle), min_eq_left hle]
  · rw [min_eq_right (Nat.mul_le_mul_right w hle), min_eq_right hle]

/-- The row count of band `i` in closed form. -/
lemma bandHeight_eq (w h t : ℕ) (hw : 0 < w) (i : ℕ) :
    bandHeight w h t i =
      min (rows_per_band h t) (h - rows_per_band h t * i) := by
  unfold bandHeight
  rw [sched_band_len w h t hw i, Nat.mul_div_cancel _ hw]

/-- Band `i` exists exactly when its top row lies inside the image. -/
lemma lt_schedBands_length_iff (w h t : ℕ) (hw : 0 < w) (i : ℕ) :
    i < (schedBands w h t).length ↔ rows_per_band h t * i < h := by
  have hrpb := rows_per_band_pos h t
  have hk : 0 < rows_per_band h t * w := Nat.mul_pos hrpb hw
  unfold schedBands
  rw [chunks_length _ hk, List.length_replicate, Nat.lt_iff_add_one_le,
    Nat.le_div_iff_mul_le hk]
  have he1 : (i + 1) * (rows_per_band h t * w) =
      rows_per_band h t * i * w + rows_per_band h t * w := by ring
  have he2 : w * h = h * w := by ring
  constructor
  · intro hle
    by_contra hcon
    push_neg at hcon
    have hmul : h * w ≤ rows_per_band h t * i * w := Nat.mul_le_mul_right w hcon
    omega
  · intro hlt
    have h1 : rows_per_band h t * i + 1 ≤ h := hlt
    have h2 : (rows_per_band h t * i + 1) * w ≤ h * w := Nat.mul_le_mul_right w h1
    have he3 : (rows_per_band h t * i + 1) * w = rows_per_band h t * i * w + w := by
      ring
    have h4 : w ≤ rows_per_band h t * w := Nat.le_mul_of_pos_left w hrpb
    omega

/-- Every existing band has at least one row. -/
lemma bandHeight_pos (w h t i : ℕ) (hw : 0 < w)
    (hi : i < (schedBands w h t).length) : 0 < bandHeight w h t i := by
  have hlt := (lt_schedBands_length_iff w h t hw i).mp hi
  rw [bandHeight_eq w h t hw i]
  have := rows_per_band_pos h t
  omega

/-- Every band except possibly the last has exactly `rows_per_band` rows. -/
lemma bandHeight_full (w h t i : ℕ) (hw : 0 < w)
    (hi : i + 1 < (schedBands w h t).length) :
    bandHeight w h t i = rows_per_band h t := by
  have hlt := (lt_schedBands_length_iff w h t hw (i + 1)).mp hi
  rw [bandHeight_eq w h t hw i]
  have he : rows_per_band h t * (i + 1) = rows_per_band h t * i + rows_per_band h t := by
    ring
  omega

/-- C2: the scheduler's bands tile the buffer: concatenated in order they
reproduce it; each band is a whole number of rows starting at row
`rows_per_band * i`; every band is nonempty and only the final one may be
shorter than `rows_per_band`; the band row-ranges are pairwise disjoint and
their union is exactly `[0, height)`. -/
theorem bands_tile (w h t : ℕ) (hw : 0 < w) (hh : 0 < h) (ht : 0 < t) :
    ((schedBands w h t).flatten = List.replicate (w * h) 0) ∧
      (∀ i, ((schedBands w h t).getD i []).length = bandHeight w h t i * w) ∧
      (∀ i, i < (schedBands w h t).length → 0 < bandHeight w h t i) ∧
      (∀ i, i + 1 < (schedBands w h t).length →
        bandHeight w h t i = rows_per_band h t) ∧
      (∀ i, i < (schedBands w h t).length →
        bandHeight w h t i ≤ rows_per_band h t) ∧
      (∀ r, r < h ↔ ∃ i, i < (schedBands w h t).length ∧
        bandTop h t i ≤ r ∧ r < bandTop h t i + bandHeight w h t i) ∧
      (∀ i j r, i < (schedBands w h t).length → j < (schedBands w h t).length →
        bandTop h t i ≤ r → r < bandTop h t i + bandHeight w h t i →
        bandTop h t j ≤ r → r < bandTop h t j + bandHeight w h t j → i = j) := by
  have hrpb := rows_per_band_pos h t
  have hk : 0 < rows_per_band h t * w := Nat.mul_pos hrpb hw
  refine ⟨?_, ?_, ?_, ?_, ?_, ?_, ?_⟩
  · exact chunks_flatten _ hk _
  · intro i
    rw [sched_band_len w h t hw i, bandHeight_eq w h t hw i]
  · exact fun i hi => bandHeight_pos w h t i hw hi
  · exact fun i hi => bandHeight_full w h t i hw hi
  · intro i _
    rw [bandHeight_eq w h t hw i]
    omega
  · intro r
    constructor
    · intro hr
      refine ⟨r / rows_per_band h t, ?_, ?_, ?_⟩
      · rw [lt_schedBands_length_iff w h t hw]
        calc rows_per_band h t * (r / rows_per_band h t)
            ≤ r := Nat.mul_div_le r (rows_per_band h t)
          _ < h := hr
      · exact Nat.mul_div_le r (rows_per_band h t)
      · unfold bandTop
        rw [bandHeight_eq w h t hw]
        have hA := Nat.div_add_mod r (rows_per_band h t)
        have hB : r % rows_per_band h t < rows_per_band h t :=
          Nat.mod_lt _ hrpb
        omega
    · rintro ⟨i, hin, h1, h2⟩
      have hlt := (lt_schedBands_length_iff w h t hw i).mp hin
      rw [bandHeight_eq w h t hw i] at h2
      unfold bandTop at h1 h2
      omega
  · intro i j r hi hj h1 h2 h3 h4
    rw [bandHeight_eq w h t hw i] at h2
    rw [bandHeight_eq w h t hw j] at h4
    unfold bandTop at h1 h2 h3 h4
    have hmi := Nat.min_le_left (rows_per_band h t)
      (h - rows_per_band h t * i)
    have hmj := Nat.min_le_left (rows_per_band h t)
      (h - rows_per_band h t * j)
    have di : r / rows_per_band h t = i :=
      Nat.div_eq_of_lt_le
        (by have e : i * rows_per_band h t = rows_per_band h t * i := by ring
            omega)
        (by have e : (i + 1) * rows_per_band h t =
              rows_per_band h t * i + rows_per_band h t := by ring
            omega)
    have dj : r / rows_per_band h t = j :=
      Nat.div_eq_of_lt_le
        (by have e : j * rows_per_band h t = rows_per_band h t * j := by ring
            omega)
        (by have e : (j + 1) * rows_per_band h t =
              rows_per_band h t * j + rows_per_band h t := by ring
            omega)
    omega

/-- Witness for C2, at `width = 3`, `height = 8`, `worker_count = 4` (three
bands of heights `3, 3, 2`). -/
theorem bands_tile_witness :
    ((schedBands 3 8 4).flatten = List.replicate (3 * 8) 0) ∧
      (∀ i, ((schedBands 3 8 4).getD i []).length = bandHeight 3 8 4 i * 3) ∧
      (∀ i, i < (schedBands 3 8 4).length → 0 < bandHeight 3 8 4 i) ∧
      (∀ i, i + 1 < (schedBands 3 8 4).length →
        bandHeight 3 8 4 i = rows_per_band 8 4) ∧
      (∀ i, i < (schedBands 3 8 4).length →
        bandHeight 3 8 4 i ≤ rows_per_band 8 4) ∧
      (∀ r, r < 8 ↔ ∃ i, i < (schedBands 3 8 4).length ∧
        bandTop 8 4 i ≤ r ∧ r < bandTop 8 4 i + bandHeight 3 8 4 i) ∧
      (∀ i j r, i < (schedBands 3 8 4).length → j < (schedBands 3 8 4).length →
        bandTop 8 4 i ≤ r → r < bandTop 8 4 i + bandHeight 3 8 4 i →
        bandTop 8 4 j ≤ r → r < bandTop 8 4 j + bandHeight 3 8 4 j → i = j) :=
  bands_tile 3 8 4 (by decide) (by decide) (by decide)

/-- In exact arithmetic the bottom-right pixel `(width, height)` maps exactly
to `lower_right`. -/
lemma pixel_to_point_corner (w h : ℕ) (ul lr : ComplexQ)
    (hw : 0 < w) (hh : 0 < h) :
    pixel_to_point (w, h) (w, h) ul lr = lr := by
  have hwQ : (w : ℚ) ≠ 0 := Nat.cast_ne_zero.mpr (by omega)
  have hhQ : (h : ℚ) ≠ 0 := Nat.cast_ne_zero.mpr (by omega)
  cases lr with
  | mk lre lim =>
    simp only [pixel_to_point]
    rw [ComplexQ.mk.injEq]
    constructor
    · field_simp
    · field_simp

/-- The last band ends exactly at the bottom row of the image. -/
lemma last_band_bottom (w h t : ℕ) (hw : 0 < w) (hh : 0 < h) :
    bandTop h t ((schedBands w h t).length - 1) +
      bandHeight w h t ((schedBands w h t).length - 1) = h := by
  have hrpb := rows_per_band_pos h t
  have hn : 0 < (schedBands w h t).length := by
    rw [lt_schedBands_length_iff w h t hw 0]
    simpa using hh
  set n := (schedBands w h t).length with hndef
  have hlast := (lt_schedBands_length_iff w h t hw (n - 1)).mp (by omega)
  have hfull : ¬ rows_per_band h t * n < h := by
    intro hcon
    exact absurd ((lt_schedBands_length_iff w h t hw n).mpr hcon)
      (lt_irrefl n)
  have he : rows_per_band h t * n =
      rows_per_band h t * (n - 1) + rows_per_band h t := by
    have h1 : n - 1 + 1 = n := by omega
    calc rows_per_band h t * n = rows_per_band h t * (n - 1 + 1) := by rw [h1]
      _ = rows_per_band h t * (n - 1) + rows_per_band h t := by ring
  unfold bandTop
  rw [bandHeight_eq w h t hw]
  omega

/-- C10: the scheduler evaluates `pixel_to_point` at `column = width` and, for
the last band, `row = height`, one past the stated pixel domain; the map is
total there and in exact arithmetic `(width, height)` lands on `lower_right`.
Each band viewport spans the full horizontal extent (`re` runs from
`upper_left.re` to `lower_right.re`), consecutive bands share their horizontal
edge, the first band starts at `upper_left`, and the last band's bottom-right
corner is exactly `lower_right`: the bands cover exactly the full viewport. -/
theorem scheduler_viewport_edges (w h t : ℕ) (ul lr : ComplexQ)
    (hw : 0 < w) (hh : 0 < h) (ht : 0 < t) :
    pixel_to_point (w, h) (w, h) ul lr = lr ∧
      (∀ i, (pixel_to_point (w, h) (0, bandTop h t i) ul lr).re = ul.re ∧
        (pixel_to_point (w, h) (w, bandTop h t i + bandHeight w h t i)
          ul lr).re = lr.re) ∧
      (∀ i, i + 1 < (schedBands w h t).length →
        (pixel_to_point (w, h) (w, bandTop h t i + bandHeight w h t i)
          ul lr).im =
        (pixel_to_point (w, h) (0, bandTop h t (i + 1)) ul lr).im) ∧
      pixel_to_point (w, h) (0, bandTop h t 0) ul lr = ul ∧
      pixel_to_point (w, h) (w, bandTop h t ((schedBands w h t).length - 1) +
        bandHeight w h t ((schedBands w h t).length - 1)) ul lr = lr := by
  have hwQ : (w : ℚ) ≠ 0 := Nat.cast_ne_zero.mpr (by omega)
  have hhQ : (h : ℚ) ≠ 0 := Nat.cast_ne_zero.mpr (by omega)
  refine ⟨pixel_to_point_corner w h ul lr hw hh, ?_, ?_, ?_, ?_⟩
  · intro i
    constructor
    · simp [pixel_to_point]
    · simp only [pixel_to_point]
      field_simp
  · intro i hi
    have he : bandTop h t i + bandHeight w h t i = bandTop h t (i + 1) := by
      rw [bandHeight_full w h t i hw hi]
      unfold bandTop
      ring
    rw [he]
    simp [pixel_to_point]
  · cases ul with
    | mk ure uim =>
      simp only [pixel_to_point, bandTop, Nat.mul_zero]
      rw [ComplexQ.mk.injEq]
      norm_num
  · rw [last_band_bottom w h t hw hh]
    exact pixel_to_point_corner w h ul lr hw hh

/-- Witness for C10, at a `3 × 8` image, 4 workers, and the standard viewport
`(-1, 1)` to `(1, -1)`. -/
theorem scheduler_viewport_edges_witness :
    pixel_to_point (3, 8) (3, 8) ⟨-1, 1⟩ ⟨1, -1⟩ = ⟨1, -1⟩ ∧
      (∀ i, (pixel_to_point (3, 8) (0, bandTop 8 4 i) ⟨-1, 1⟩ ⟨1, -1⟩).re =
          (⟨-1, 1⟩ : ComplexQ).re ∧
        (pixel_to_point (3, 8) (3, bandTop 8 4 i + bandHeight 3 8 4 i)
          ⟨-1, 1⟩ ⟨1, -1⟩).re = (⟨1, -1⟩ : ComplexQ).re) ∧
      (∀ i, i + 1 < (schedBands 3 8 4).length →
        (pixel_to_point (3, 8) (3, bandTop 8 4 i + bandHeight 3 8 4 i)
          ⟨-1, 1⟩ ⟨1, -1⟩).im =
        (pixel_to_point (3, 8) (0, bandTop 8 4 (i + 1)) ⟨-1, 1⟩ ⟨1, -1⟩).im) ∧
      pixel_to_point (3, 8) (0, bandTop 8 4 0) ⟨-1, 1⟩ ⟨1, -1⟩ = ⟨-1, 1⟩ ∧
      pixel_to_point (3, 8) (3, bandTop 8 4 ((schedBands 3 8 4).length - 1) +
        bandHeight 3 8 4 ((schedBands 3 8 4).length - 1)) ⟨-1, 1⟩ ⟨1, -1⟩ =
        ⟨1, -1⟩ :=
  scheduler_viewport_edges 3 8 4 ⟨-1, 1⟩ ⟨1, -1⟩ (by decide) (by decide)
    (by decide)

/-- Exact-arithmetic key identity: mapping a band-local pixel through the
band's derived viewport (corners obtained from the full bounds) agrees with
mapping the corresponding global pixel through the full viewport. -/
lemma band_pixel_to_point_eq (w h : ℕ) (ul lr : ComplexQ)
    (hw : 0 < w) (hh : 0 < h) (top bh : ℕ) (hbh : 0 < bh) (col row : ℕ) :
    pixel_to_point (w, bh) (col, row)
        (pixel_to_point (w, h) (0, top) ul lr)
        (pixel_to_point (w, h) (w, top + bh) ul lr) =
      pixel_to_point (w, h) (col, top + row) ul lr := by
  have hwQ : (w : ℚ) ≠ 0 := Nat.cast_ne_zero.mpr (by omega)
  have hhQ : (h : ℚ) ≠ 0 := Nat.cast_ne_zero.mpr (by omega)
  have hbhQ : (bh : ℚ) ≠ 0 := Nat.cast_ne_zero.mpr (by omega)
  simp only [pixel_to_point]
  rw [ComplexQ.mk.injEq]
  constructor
  · push_cast
    field_simp
  · push_cast
    field_simp
    ring

/-- The per-pixel byte of a band render agrees with the per-pixel byte of the
full render at the corresponding global row. -/
lemma band_mandelPixel_eq (w h : ℕ) (ul lr : ComplexQ)
    (hw : 0 < w) (hh : 0 < h) (top bh : ℕ) (hbh : 0 < bh) (col row : ℕ) :
    mandelPixel (w, bh)
        (pixel_to_point (w, h) (0, top) ul lr)
        (pixel_to_point (w, h) (w, top + bh) ul lr) col row =
      mandelPixel (w, h) ul lr col (top + row) := by
  unfold mandelPixel
  rw [band_pixel_to_point_eq w h ul lr hw hh top bh hbh col row]

/-- Pointwise description of the full sequential render of a zero buffer. -/
lemma full_render_getElem? (w h : ℕ) (ul lr : ComplexQ) (hw : 0 < w) (i : ℕ) :
    (renderRows (w, h) ul lr h (List.replicate (w * h) 0))[i]? =
      if i < h * w then some (mandelPixel (w, h) ul lr (i % w) (i / w))
      else none := by
  have hb1 : ((w, h) : ℕ × ℕ).1 = w := rfl
  rw [renderRows_getElem? (w, h) ul lr h (List.replicate (w * h) 0) hw
    (by rw [hb1, List.length_replicate, Nat.mul_comm w h]) i]
  rw [hb1]
  by_cases hi : i < h * w
  · rw [if_pos hi, if_pos hi]
  · rw [if_neg hi, if_neg hi, List.getElem?_replicate,
      if_neg (by have e : w * h = h * w := by ring
                 omega)]

/-- One band's output, followed by the rest of the full render, equals the
full render from the band's top row on. -/
lemma band_append_drop (w h : ℕ) (ul lr : ComplexQ) (rpb i : ℕ)
    (hw : 0 < w) (hh : 0 < h) (hrpb : 0 < rpb) (hlt : rpb * i < h) :
    renderRows (w, min rpb (h - rpb * i))
        (pixel_to_point (w, h) (0, rpb * i) ul lr)
        (pixel_to_point (w, h) (w, rpb * i + min rpb (h - rpb * i)) ul lr)
        (min rpb (h - rpb * i))
        (List.replicate (min rpb (h - rpb * i) * w) 0)
      ++ (renderRows (w, h) ul lr h (List.replicate (w * h) 0)).drop
          (rpb * w * (i + 1))
    = (renderRows (w, h) ul lr h (List.replicate (w * h) 0)).drop
        (rpb * w * i) := by
  set B := min rpb (h - rpb * i) with hB
  have hBpos : 0 < B := by omega
  have hfull_len :
      (renderRows (w, h) ul lr h (List.replicate (w * h) 0)).length = w * h := by
    rw [length_renderRows, List.length_replicate]
  have hband_len :
      (renderRows (w, B) (pixel_to_point (w, h) (0, rpb * i) ul lr)
        (pixel_to_point (w, h) (w, rpb * i + B) ul lr) B
        (List.replicate (B * w) 0)).length = B * w := by
    rw [length_renderRows, List.length_replicate]
  apply List.ext_getElem?
  intro j
  rw [List.getElem?_append, hband_len, List.getElem?_drop, List.getElem?_drop]
  by_cases hj : j < B * w
  · rw [if_pos hj]
    have hb1 : ((w, B) : ℕ × ℕ).1 = w := rfl
    rw [renderRows_getElem? (w, B) (pixel_to_point (w, h) (0, rpb * i) ul lr)
      (pixel_to_point (w, h) (w, rpb * i + B) ul lr) B
      (List.replicate (B * w) 0) hw
      (by rw [hb1, List.length_replicate]) j]
    rw [hb1, if_pos hj]
    rw [band_mandelPixel_eq w h ul lr hw hh (rpb * i) B hBpos (j % w) (j / w)]
    rw [full_render_getElem? w h ul lr hw (rpb * w * i + j)]
    have hidx : rpb * w * i + j < h * w := by
      have h1 : B * w ≤ (h - rpb * i) * w := Nat.mul_le_mul_right w (by omega)
      have h2 : rpb * w * i + (h - rpb * i) * w = h * w := by
        rw [tsub_mul]
        have e1 : rpb * i * w = rpb * w * i := by ring
        have e2 : rpb * i * w ≤ h * w := Nat.mul_le_mul_right w (by omega)
        omega
      omega
    rw [if_pos hidx]
    have he : rpb * w * i + j = j + w * (rpb * i) := by ring
    rw [he, Nat.add_mul_div_left _ _ hw, Nat.add_mul_mod_self_left,
      Nat.add_comm (j / w) (rpb * i)]
  · rw [if_neg hj]
    rcases le_or_lt rpb (h - rpb * i) with hcase | hcase
    · have hBr : B = rpb := by omega
      have hidx : rpb * w * (i + 1) + (j - B * w) = rpb * w * i + j := by
        have e : rpb * w * (i + 1) = rpb * w * i + rpb * w := by ring
        have e2 : B * w = rpb * w := by rw [hBr]
        omega
      rw [hidx]
    · have hout1 : w * h ≤ rpb * w * (i + 1) + (j - B * w) := by
        have e : rpb * (i + 1) = rpb * i + rpb := by ring
        have h1 : h ≤ rpb * (i + 1) := by omega
        have h2 : h * w ≤ rpb * (i + 1) * w := Nat.mul_le_mul_right w h1
        have e3 : rpb * (i + 1) * w = rpb * w * (i + 1) := by ring
        have e4 : w * h = h * w := by ring
        omega
      have hout2 : w * h ≤ rpb * w * i + j := by
        have h1 : (h - rpb * i) * w ≤ j := by
          have : B * w ≤ j := by omega
          calc (h - rpb * i) * w ≤ B * w := Nat.mul_le_mul_right w (by omega)
            _ ≤ j := this
        have h2 : rpb * w * i + (h - rpb * i) * w = w * h := by
          rw [tsub_mul]
          have e1 : rpb * i * w = rpb * w * i := by ring
          have e2 : rpb * i * w ≤ h * w := Nat.mul_le_mul_right w (by omega)
          have e3 : w * h = h * w := by ring
          omega
        omega
      rw [List.getElem?_eq_none (by rw [hfull_len]; exact hout1),
        List.getElem?_eq_none (by rw [hfull_len]; exact hout2)]

/-- The band loop, started at band `i` on the chunked remainder of the
buffer, produces exactly the tail of the full sequential render. -/
lemma renderBands_chunks_eq (w h : ℕ) (ul lr : ComplexQ) (rpb : ℕ)
    (hw : 0 < w) (hh : 0 < h) (hrpb : 0 < rpb) :
    ∀ m i, m = w * h - rpb * w * i →
      renderBands w h ul lr rpb i (chunks (rpb * w) (List.replicate m 0)) =
        some ((renderRows (w, h) ul lr h (List.replicate (w * h) 0)).drop
          (rpb * w * i)) := by
  intro m
  induction m using Nat.strong_induction_on with
  | _ m ih =>
    intro i hm
    have hk : 0 < rpb * w := Nat.mul_pos hrpb hw
    by_cases hm0 : m = 0
    · subst hm0
      rw [List.replicate_zero, chunks_nil]
      simp only [renderBands]
      rw [List.drop_eq_nil_of_le
        (by rw [length_renderRows, List.length_replicate]; omega)]
    · have hrepl_ne : List.replicate m (0 : ℕ) ≠ [] := by
        intro hc
        exact hm0 (by simpa using congrArg List.length hc)
      rw [chunks_cons _ _ (by omega) hrepl_ne, List.take_replicate,
        List.drop_replicate]
      have hlt : rpb * i < h := by
        have h1 : rpb * i * w < h * w := by
          have e1 : rpb * i * w = rpb * w * i := by ring
          have e2 : w * h = h * w := by ring
          omega
        exact Nat.lt_of_mul_lt_mul_right h1
      have hmw : m = (h - rpb * i) * w := by
        rw [tsub_mul]
        have e1 : rpb * i * w = rpb * w * i := by ring
        have e2 : rpb * i * w ≤ h * w := Nat.mul_le_mul_right w (by omega)
        have e3 : w * h = h * w := by ring
        omega
      have hminmul : (rpb * w) ⊓ m = min rpb (h - rpb * i) * w := by
        rw [hmw]
        rcases le_total rpb (h - rpb * i) with hle | hle
        · rw [min_eq_left (Nat.mul_le_mul_right w hle), min_eq_left hle]
        · rw [min_eq_right (Nat.mul_le_mul_right w hle), min_eq_right hle]
      rw [hminmul]
      simp only [renderBands]
      have hlB : (List.replicate (min rpb (h - rpb * i) * w) (0 : ℕ)).length / w
          = min rpb (h - rpb * i) := by
        rw [List.length_replicate, Nat.mul_div_cancel _ hw]
      rw [hlB]
      have hrend : render (List.replicate (min rpb (h - rpb * i) * w) 0)
          (w, min rpb (h - rpb * i))
          (pixel_to_point (w, h) (0, rpb * i) ul lr)
          (pixel_to_point (w, h) (w, rpb * i + min rpb (h - rpb * i)) ul lr)
          = some (renderRows (w, min rpb (h - rpb * i))
              (pixel_to_point (w, h) (0, rpb * i) ul lr)
              (pixel_to_point (w, h) (w, rpb * i + min rpb (h - rpb * i)) ul lr)
              (min rpb (h - rpb * i))
              (List.replicate (min rpb (h - rpb * i) * w) 0)) := by
        unfold render
        rw [if_pos (by rw [List.length_replicate]; exact Nat.mul_comm _ _)]
      rw [hrend]
      have hrec := ih (m - rpb * w) (by omega) (i + 1) (by
        have e : rpb * w * (i + 1) = rpb * w * i + rpb * w := by ring
        omega)
      rw [hrec]
      simp only [Option.some_bind, Option.map_some']
      rw [band_append_drop w h ul lr rpb i hw hh hrpb hlt]
